import Mathlib

/-!
Shallow embedding of the generic singly-linked container and the lazy
sequence protocol from the repository's generics/iterators example
(`List[T]` with `Push`, `AllElements`, the `All` iterator, `genFib`,
and `slices.Collect` driving an iterator with an always-true consumer).

Pointers are modelled as addresses (indices) into an explicit heap of
allocated `element` cells; allocation appends a fresh cell at the end of
the heap, so a freshly allocated address never collides with a live one.
A Go `nil` pointer is `Option.none`.  Go's `iter.Seq[T]` producer is
modelled as a function that is driven by a consumer callback; because a
Go consumer may close over mutable state, the consumer is modelled as a
function of the invocation index (number of previous calls) and the
value.  Producer loops that the source writes as unbounded `for` loops
are given explicit fuel; statements about termination and cancellation
are phrased as fuel-independence of the produced trace.

Go's `int` is 64-bit on the reference platform; its `+` wraps modulo
2^64 into the signed range [-2^63, 2^63).  `wrap` below is that
reduction (numerals 9223372036854775808 = 2^63 and
18446744073709551616 = 2^64).
-/

/-- One allocated cell of the chain: the source's `element[T]` struct,
with `next` a possibly-nil pointer (heap address) and `val` the payload. -/
structure element (T : Type) where
  next : Option Nat
  val  : T
deriving DecidableEq

/-- The heap of allocated cells; a pointer is an index into this list. -/
abbrev Heap (T : Type) := List (element T)

/-- The source's `List[T]` struct: `head` and `tail` are possibly-nil
pointers into the heap. -/
structure GoList (T : Type) where
  head : Option Nat
  tail : Option Nat
deriving DecidableEq

/-- A program state: the heap of allocated cells together with the
`List[T]` header the methods operate on (the receiver `lst`). -/
structure State (T : Type) where
  heap : Heap T
  lst  : GoList T
deriving DecidableEq

/-- The zero value `List[T]{}`: both pointers nil, nothing allocated. -/
def State.empty (T : Type) : State T := ⟨[], ⟨none, none⟩⟩

/-- Overwrite the `next` field of the cell at address `t` (the source's
`lst.tail.next = ...` assignment).  Out-of-range addresses leave the
heap unchanged; under the chain invariant `t` is always in range. -/
def setNext {T : Type} (h : Heap T) (t a : Nat) : Heap T :=
  match h[t]? with
  | none => h
  | some e => h.set t { e with next := some a }

/-- The source's `Push` method:
if `lst.tail == nil` a fresh cell becomes both head and tail, otherwise
the fresh cell is linked after the current tail and becomes the tail. -/
def GoList.Push {T : Type} (σ : State T) (v : T) : State T :=
  match σ.lst.tail with
  | none =>
    let a := σ.heap.length
    ⟨σ.heap ++ [⟨none, v⟩], ⟨some a, some a⟩⟩
  | some t =>
    let a := σ.heap.length
    ⟨setNext (σ.heap ++ [⟨none, v⟩]) t a, ⟨σ.lst.head, some a⟩⟩

/-- Iterated `Push` of a list of values, left to right. -/
def pushAll {T : Type} (σ : State T) (vs : List T) : State T :=
  vs.foldl GoList.Push σ

/-- The loop of the source's `AllElements` method: follow `next` links
from `cur`, collecting values.  `fuel` bounds the number of steps; it
is an artifact of the embedding and is always instantiated with the heap
size, which suffices for any chain built by `Push`. -/
def walkFrom {T : Type} (h : Heap T) : Nat → Option Nat → List T
  | _, none => []
  | 0, some _ => []
  | fuel+1, some a =>
    match h[a]? with
    | none => []
    | some e => e.val :: walkFrom h fuel e.next

/-- The source's `AllElements` method: collect every value reachable
from `head` in link order. -/
def GoList.AllElements {T : Type} (σ : State T) : List T :=
  walkFrom σ.heap σ.heap.length σ.lst.head

/-- The loop of the producer returned by the source's `All` method:
starting at `cur`, call the consumer `c` on each value (with the
invocation index) and stop when the chain ends or the consumer returns
false.  The state is threaded through and returned so that the claim
that the walk never mutates the chain is a statement, not a convention;
the produced trace lists the values the consumer was invoked with,
in order. -/
def produceLoop {T : Type} (c : Nat → T → Bool) :
    Nat → Nat → Option Nat → State T → State T × List T
  | _, _, none, σ => (σ, [])
  | 0, _, some _, σ => (σ, [])
  | fuel+1, i, some a, σ =>
    match σ.heap[a]? with
    | none => (σ, [])
    | some e =>
      if c i e.val then
        let r := produceLoop c fuel (i+1) e.next σ
        (r.1, e.val :: r.2)
      else (σ, [e.val])

/-- The source's `All` method, driven by a consumer: the returned
iterator reads `lst.head` and the heap at the moment it is driven.
Returns the state after the run together with the trace of consumer
invocations. -/
def GoList.All {T : Type} (σ : State T) (c : Nat → T → Bool) :
    State T × List T :=
  produceLoop c σ.heap.length 0 σ.lst.head σ

/-- The trace of consumer invocations of one run of `All`'s producer. -/
def AllTrace {T : Type} (σ : State T) (c : Nat → T → Bool) : List T :=
  (GoList.All σ c).2

/-- The source's `slices.Collect` applied to `lst.All()`: drive the
producer with a consumer that appends every value and always answers
true; the result is the trace of that run. -/
def collect {T : Type} (σ : State T) : List T :=
  AllTrace σ (fun _ _ => true)

/-- Reduction of a mathematical integer into Go's signed 64-bit `int`
range: the result is congruent modulo 2^64 and lies in
[-2^63, 2^63). -/
def wrap (x : Int) : Int :=
  (x + 9223372036854775808) % 18446744073709551616 - 9223372036854775808

/-- The loop of the producer returned by the source's `genFib`: keep
yielding `a` and stepping `a, b = b, a+b` (with Go's wrapping `int`
addition) until the consumer answers false.  `fuel` bounds the number
of iterations of the source's unbounded `for`; statements about
cancellation are fuel-independent.  `i` is the invocation index. -/
def genFibLoop (c : Nat → Int → Bool) : Nat → Nat → Int → Int → List Int
  | 0, _, _, _ => []
  | fuel+1, i, a, b =>
    if c i a then a :: genFibLoop c fuel (i+1) b (wrap (a + b))
    else [a]

/-- The source's `genFib` iterator driven by a consumer `c` for at most
`fuel` iterations: the trace of consumer invocations, starting from
`a, b := 1, 1`. -/
def genFib (c : Nat → Int → Bool) (fuel : Nat) : List Int :=
  genFibLoop c fuel 0 1 1

/-- The pair `(a, b)` held by `genFib`'s loop after `n` completed
iterations. -/
def fibGoPair : Nat → Int × Int
  | 0 => (1, 1)
  | n+1 => ((fibGoPair n).2, wrap ((fibGoPair n).1 + (fibGoPair n).2))

/-- The value `genFib`'s producer passes to its consumer on the `n`-th
invocation (1-indexed). -/
def nthFibGo (n : Nat) : Int := (fibGoPair (n - 1)).1

/-- Pair of consecutive mathematical Fibonacci numbers
`(F n, F (n+1))` under the convention F 0 = 0, F 1 = F 2 = 1. -/
def fibPair : Nat → Nat × Nat
  | 0 => (0, 1)
  | n+1 => ((fibPair n).2, (fibPair n).1 + (fibPair n).2)

/-- The mathematical Fibonacci number F n, with F 1 = F 2 = 1. -/
def fib (n : Nat) : Nat := (fibPair n).1

/-- The cells reachable from a (possibly nil) pointer `o` form exactly
the finite chain `p` of address/cell pairs: each listed address is
allocated, holds the listed cell, and links to the rest of the chain;
the final cell's `next` is nil. -/
inductive isChain {T : Type} (h : Heap T) : Option Nat → List (Nat × element T) → Prop
  | nil : isChain h none []
  | cons {a : Nat} {e : element T} {p : List (Nat × element T)} :
      h[a]? = some e → isChain h e.next p → isChain h (some a) ((a, e) :: p)

/-- The addresses of a chain, in link order. -/
def addrs {T : Type} (p : List (Nat × element T)) : List Nat := p.map Prod.fst

/-- The values of a chain, in link order. -/
def vals {T : Type} (p : List (Nat × element T)) : List T :=
  p.map (fun q => q.2.val)

/-- The invariant every state reachable by `Push` from the zero value
satisfies: the cells reachable from `head` form a chain `p`, `tail` is
the last address of that chain (nil when the chain is empty), and the
chain is no longer than the heap (so heap-size fuel always completes a
walk). -/
def ListInv {T : Type} (σ : State T) : Prop :=
  ∃ p, isChain σ.heap σ.lst.head p ∧ σ.lst.tail = (addrs p).getLast? ∧
    p.length ≤ σ.heap.length

theorem chain_none {T : Type} {h : Heap T} {p : List (Nat × element T)}
    (hc : isChain h none p) : p = [] := by
  cases hc; rfl

theorem chain_nil_opt {T : Type} {h : Heap T} {o : Option Nat}
    (hc : isChain h o []) : o = none := by
  cases hc; rfl

theorem chain_mem_lookup {T : Type} {h : Heap T} {o : Option Nat}
    {p : List (Nat × element T)} (hc : isChain h o p) :
    ∀ q ∈ p, h[q.1]? = some q.2 := by
  induction hc with
  | nil => intro q hq; cases hq
  | cons ha _ ih =>
    intro q hq
    rcases List.mem_cons.mp hq with rfl | hq
    · exact ha
    · exact ih q hq

theorem chain_getLast_next_none {T : Type} {h : Heap T} {o : Option Nat}
    {p : List (Nat × element T)} {t : Nat} {et : element T}
    (hc : isChain h o p) (hl : p.getLast? = some (t, et)) :
    h[t]? = some et ∧ et.next = none := by
  induction hc with
  | nil => simp at hl
  | @cons a e p' ha hp ih =>
    cases p' with
    | nil =>
      simp at hl
      obtain ⟨rfl, rfl⟩ := hl
      exact ⟨ha, chain_nil_opt hp⟩
    | cons q r =>
      exact ih (by rw [← hl]; exact (List.getLast?_cons_cons).symm)

theorem chain_next_none_last {T : Type} {h : Heap T} {o : Option Nat}
    {p : List (Nat × element T)} (hc : isChain h o p) :
    ∀ q ∈ p, q.2.next = none → p.getLast? = some q := by
  induction hc with
  | nil => intro q hq; cases hq
  | @cons a e p' ha hp ih =>
    intro q hq hqn
    rcases List.mem_cons.mp hq with rfl | hq
    · have : p' = [] := chain_none (hqn ▸ hp)
      subst this; rfl
    · have hne : p' ≠ [] := List.ne_nil_of_mem hq
      obtain ⟨y, r, rfl⟩ := List.exists_cons_of_ne_nil hne
      rw [List.getLast?_cons_cons]
      exact ih q hq hqn

theorem chain_extend {T : Type} {h : Heap T} {o : Option Nat}
    {p : List (Nat × element T)} (hc : isChain h o p) (h2 : Heap T) :
    isChain (h ++ h2) o p := by
  induction hc with
  | nil => exact isChain.nil
  | @cons a e p' ha _ ih =>
    have hlt : a < h.length := (List.getElem?_eq_some.mp ha).1
    exact isChain.cons (by rw [List.getElem?_append, if_pos hlt]; exact ha) ih

theorem setNext_lookup_same {T : Type} {h : Heap T} {t a : Nat} {e : element T}
    (he : h[t]? = some e) :
    (setNext h t a)[t]? = some { e with next := some a } := by
  unfold setNext
  rw [he]
  exact List.getElem?_set_eq_of_lt _ (List.getElem?_eq_some.mp he).1

theorem setNext_lookup_other {T : Type} {h : Heap T} {t a j : Nat}
    (hj : j ≠ t) : (setNext h t a)[j]? = h[j]? := by
  unfold setNext
  cases h[t]? with
  | none => rfl
  | some e => exact List.getElem?_set_ne (Ne.symm hj)

theorem setNext_length {T : Type} (h : Heap T) (t a : Nat) :
    (setNext h t a).length = h.length := by
  unfold setNext
  cases h[t]? with
  | none => rfl
  | some e => simp

theorem chain_push {T : Type} {h : Heap T} {t : Nat} {et : element T} {v : T} :
    ∀ {o : Option Nat} {p : List (Nat × element T)},
    isChain h o p → p.getLast? = some (t, et) →
    ∃ p', isChain (setNext (h ++ [(⟨none, v⟩ : element T)]) t h.length) o p' ∧
      addrs p' = addrs p ++ [h.length] ∧ vals p' = vals p ++ [v] := by
  intro o p hc
  induction hc with
  | nil => intro hl; simp at hl
  | @cons a e p' ha hp ih =>
    intro hl
    have hlast := chain_getLast_next_none (isChain.cons ha hp) hl
    have htlt : t < h.length := (List.getElem?_eq_some.mp hlast.1).1
    have halt : a < h.length := (List.getElem?_eq_some.mp ha).1
    have hext : (h ++ [(⟨none, v⟩ : element T)])[t]? = some et := by
      rw [List.getElem?_append, if_pos htlt]
      exact hlast.1
    cases p' with
    | nil =>
      have hae : a = t ∧ e = et := by simpa using hl
      obtain ⟨rfl, rfl⟩ := hae
      refine ⟨[(a, { e with next := some h.length }), (h.length, ⟨none, v⟩)],
        ?_, by simp [addrs], by simp [vals]⟩
      have h1 := setNext_lookup_same (a := h.length) hext
      have h2 : (setNext (h ++ [(⟨none, v⟩ : element T)]) a h.length)[h.length]? =
          some (⟨none, v⟩ : element T) := by
        rw [setNext_lookup_other (by omega), List.getElem?_concat_length]
      exact isChain.cons h1 (isChain.cons h2 isChain.nil)
    | cons y r =>
      have hl' : (y :: r).getLast? = some (t, et) := by
        rw [← hl]; exact (List.getLast?_cons_cons).symm
      have hat : a ≠ t := by
        intro heq
        subst heq
        have he : e = et := by
          rw [ha] at hlast
          exact Option.some_injective _ hlast.1
        subst he
        have : (y :: r) = [] := chain_none (hlast.2 ▸ hp)
        simp at this
      obtain ⟨p'', hc'', haddr, hval⟩ := ih hl'
      refine ⟨(a, e) :: p'', isChain.cons ?_ hc'',
        by simp [addrs] at haddr ⊢; exact haddr,
        by simp [vals] at hval ⊢; exact hval⟩
      rw [setNext_lookup_other hat, List.getElem?_append, if_pos halt]
      exact ha

theorem push_spec {T : Type} (σ : State T) (v : T)
    {p : List (Nat × element T)}
    (hc : isChain σ.heap σ.lst.head p)
    (ht : σ.lst.tail = (addrs p).getLast?)
    (hn : p.length ≤ σ.heap.length) :
    ∃ p', isChain (GoList.Push σ v).heap (GoList.Push σ v).lst.head p' ∧
      (GoList.Push σ v).lst.tail = (addrs p').getLast? ∧
      p'.length ≤ (GoList.Push σ v).heap.length ∧
      vals p' = vals p ++ [v] := by
  cases htl : σ.lst.tail with
  | none =>
    have hp : p = [] := by
      rw [htl] at ht
      have := List.getLast?_eq_none_iff.mp ht.symm
      simpa [addrs] using this
    subst hp
    have hh : σ.lst.head = none := chain_nil_opt hc
    refine ⟨[(σ.heap.length, ⟨none, v⟩)], ?_, ?_, ?_, by simp [vals]⟩
    · show isChain _ (GoList.Push σ v).lst.head _
      simp only [GoList.Push, htl]
      exact isChain.cons (List.getElem?_concat_length _ _) isChain.nil
    · simp [GoList.Push, htl, addrs]
    · simp [GoList.Push, htl]
  | some t =>
    rw [htl] at ht
    have hmap : (p.getLast?).map Prod.fst = some t := by
      rw [← List.getLast?_map]
      exact ht.symm
    obtain ⟨q, hq1, hq2⟩ := Option.map_eq_some'.mp hmap
    obtain ⟨t', et⟩ := q
    have ht' : t' = t := hq2
    subst ht'
    obtain ⟨p', hc', haddr, hval⟩ := chain_push (v := v) hc hq1
    have hlen : p'.length = p.length + 1 := by
      have h1 := congrArg List.length haddr
      simpa [addrs] using h1
    refine ⟨p', ?_, ?_, ?_, hval⟩
    · show isChain (GoList.Push σ v).heap (GoList.Push σ v).lst.head p'
      simp only [GoList.Push, htl]
      exact hc'
    · show (GoList.Push σ v).lst.tail = _
      simp only [GoList.Push, htl]
      show some σ.heap.length = (addrs p').getLast?
      rw [haddr, List.getLast?_concat]
    · show p'.length ≤ (GoList.Push σ v).heap.length
      simp only [GoList.Push, htl]
      show p'.length ≤ (setNext (σ.heap ++ [⟨none, v⟩]) t' σ.heap.length).length
      rw [setNext_length]
      simp [hlen]
      omega

theorem listInv_push {T : Type} {σ : State T} (v : T) (h : ListInv σ) :
    ListInv (GoList.Push σ v) := by
  obtain ⟨p, hc, ht, hn⟩ := h
  obtain ⟨p', hc', ht', hn', _⟩ := push_spec σ v hc ht hn
  exact ⟨p', hc', ht', hn'⟩

theorem listInv_empty (T : Type) : ListInv (State.empty T) :=
  ⟨[], isChain.nil, rfl, by simp [State.empty]⟩

/-- Master description of `pushAll`: pushing `vs` extends the chain's
value sequence by `vs`, preserving the invariant. -/
theorem pushAll_spec {T : Type} :
    ∀ (vs : List T) (σ : State T) (p : List (Nat × element T)),
    isChain σ.heap σ.lst.head p →
    σ.lst.tail = (addrs p).getLast? →
    p.length ≤ σ.heap.length →
    ∃ p', isChain (pushAll σ vs).heap (pushAll σ vs).lst.head p' ∧
      (pushAll σ vs).lst.tail = (addrs p').getLast? ∧
      p'.length ≤ (pushAll σ vs).heap.length ∧
      vals p' = vals p ++ vs := by
  intro vs
  induction vs with
  | nil =>
    intro σ p hc ht hn
    exact ⟨p, hc, ht, hn, by simp⟩
  | cons v vs ih =>
    intro σ p hc ht hn
    obtain ⟨p1, hc1, ht1, hn1, hv1⟩ := push_spec σ v hc ht hn
    obtain ⟨p2, hc2, ht2, hn2, hv2⟩ := ih (GoList.Push σ v) p1 hc1 ht1 hn1
    refine ⟨p2, ?_, ?_, ?_, ?_⟩
    · show isChain (pushAll σ (v :: vs)).heap (pushAll σ (v :: vs)).lst.head p2
      simpa [pushAll] using hc2
    · simpa [pushAll] using ht2
    · simpa [pushAll] using hn2
    · rw [hv2, hv1]
      simp

theorem listInv_pushAll {T : Type} {σ : State T} (vs : List T)
    (h : ListInv σ) : ListInv (pushAll σ vs) := by
  obtain ⟨p, hc, ht, hn⟩ := h
  obtain ⟨p', hc', ht', hn', _⟩ := pushAll_spec vs σ p hc ht hn
  exact ⟨p', hc', ht', hn'⟩

theorem walkFrom_cons {T : Type} {h : Heap T} (fuel : Nat) (a : Nat)
    {e : element T} (ha : h[a]? = some e) :
    walkFrom h (fuel+1) (some a) = e.val :: walkFrom h fuel e.next := by
  conv_lhs => rw [walkFrom]
  rw [ha]

theorem produceLoop_cons {T : Type} (c : Nat → T → Bool) (fuel i a : Nat)
    {σ : State T} {e : element T} (ha : σ.heap[a]? = some e) :
    produceLoop c (fuel+1) i (some a) σ =
      if c i e.val then
        ((produceLoop c fuel (i+1) e.next σ).1,
          e.val :: (produceLoop c fuel (i+1) e.next σ).2)
      else (σ, [e.val]) := by
  conv_lhs => rw [produceLoop]
  rw [ha]

theorem walkFrom_spec {T : Type} {h : Heap T} :
    ∀ {cur : Option Nat} {p : List (Nat × element T)},
    isChain h cur p → ∀ fuel, p.length ≤ fuel →
    walkFrom h fuel cur = vals p := by
  intro cur p hc
  induction hc with
  | nil => intro fuel _; cases fuel <;> rfl
  | @cons a e p' ha _ ih =>
    intro fuel hf
    cases fuel with
    | zero => simp at hf
    | succ f =>
      rw [walkFrom_cons f a ha, ih f (by simpa using hf)]
      rfl

/-- The producer of `All` never writes: it returns the state it was
given. -/
theorem produce_fst {T : Type} (c : Nat → T → Bool) :
    ∀ (fuel i : Nat) (cur : Option Nat) (σ : State T),
    (produceLoop c fuel i cur σ).1 = σ := by
  intro fuel
  induction fuel with
  | zero => intro i cur σ; cases cur <;> rfl
  | succ f ih =>
    intro i cur σ
    cases cur with
    | none => rfl
    | some a =>
      cases he : σ.heap[a]? with
      | none =>
        show (produceLoop c (f+1) i (some a) σ).1 = σ
        unfold produceLoop
        rw [he]
      | some e =>
        rw [produceLoop_cons c f i a he]
        by_cases hci : c i e.val
        · simp only [hci, if_true]
          exact ih (i+1) e.next σ
        · simp [hci]

/-- Driving `All`'s producer with a consumer that always answers true
yields exactly the chain's values. -/
theorem produce_trace_true {T : Type} {σ : State T} {c : Nat → T → Bool}
    (hctrue : ∀ j v, c j v = true) :
    ∀ {cur : Option Nat} {p : List (Nat × element T)},
    isChain σ.heap cur p → ∀ fuel i, p.length ≤ fuel →
    (produceLoop c fuel i cur σ).2 = vals p := by
  intro cur p hc
  induction hc with
  | nil => intro fuel i _; cases fuel <;> rfl
  | @cons a e p' ha _ ih =>
    intro fuel i hf
    cases fuel with
    | zero => simp at hf
    | succ f =>
      rw [produceLoop_cons c f i a ha]
      simp only [hctrue i e.val, if_true]
      rw [ih f (i+1) (by simpa using hf)]
      rfl

/-- Driving `All`'s producer with a consumer that answers true before
its `k`-th invocation and false on the `k`-th yields exactly the first
`k - i` chain values (when at least that many remain), the last of them
being the one the consumer rejected. -/
theorem produce_trace_stop {T : Type} {σ : State T} {c : Nat → T → Bool}
    {k : Nat}
    (htrue : ∀ j v, j + 1 < k → c j v = true)
    (hfalse : ∀ v, c (k - 1) v = false) :
    ∀ {cur : Option Nat} {p : List (Nat × element T)},
    isChain σ.heap cur p → ∀ fuel i, p.length ≤ fuel →
    i < k → k - i ≤ p.length →
    (produceLoop c fuel i cur σ).2 = (vals p).take (k - i) := by
  intro cur p hc
  induction hc with
  | nil => intro fuel i _ hik hkp; simp [vals] at hkp; omega
  | @cons a e p' ha _ ih =>
    intro fuel i hf hik hkp
    cases fuel with
    | zero => simp at hf
    | succ f =>
      rw [produceLoop_cons c f i a ha]
      by_cases hlt : i + 1 < k
      · simp only [htrue i e.val hlt, if_true]
        have harith : k - i = (k - (i+1)) + 1 := by omega
        have hkp' : k - (i+1) ≤ p'.length := by simp at hkp; omega
        by_cases hp' : k - (i + 1) = 0
        · omega
        · have := ih f (i+1) (by simpa using hf) (by omega) hkp'
          rw [this]
          show e.val :: (vals p').take (k - (i+1)) = (e.val :: vals p').take (k - i)
          rw [harith]
          rfl
      · have hieq : i = k - 1 := by omega
        rw [hieq, hfalse e.val]
        simp only [Bool.false_eq_true, if_false]
        have hone : k - (k - 1) = 1 := by omega
        rw [hone]
        rfl

theorem collect_eq_vals {T : Type} {σ : State T} {p : List (Nat × element T)}
    (hc : isChain σ.heap σ.lst.head p) (hn : p.length ≤ σ.heap.length) :
    collect σ = vals p :=
  produce_trace_true (fun _ _ => rfl) hc σ.heap.length 0 hn

theorem allElements_eq_vals {T : Type} {σ : State T}
    {p : List (Nat × element T)}
    (hc : isChain σ.heap σ.lst.head p) (hn : p.length ≤ σ.heap.length) :
    GoList.AllElements σ = vals p :=
  walkFrom_spec hc σ.heap.length hn

theorem collect_pushAll {T : Type} {σ : State T} (vs : List T)
    (h : ListInv σ) :
    collect (pushAll σ vs) = collect σ ++ vs := by
  obtain ⟨p, hc, ht, hn⟩ := h
  obtain ⟨p', hc', _, hn', hv'⟩ := pushAll_spec vs σ p hc ht hn
  rw [collect_eq_vals hc hn, collect_eq_vals hc' hn', hv']

theorem collect_push {T : Type} {σ : State T} (v : T) (h : ListInv σ) :
    collect (GoList.Push σ v) = collect σ ++ [v] := by
  have := collect_pushAll [v] h
  simpa [pushAll] using this

theorem allElements_push {T : Type} {σ : State T} (v : T) (h : ListInv σ) :
    GoList.AllElements (GoList.Push σ v) = GoList.AllElements σ ++ [v] := by
  obtain ⟨p, hc, ht, hn⟩ := h
  obtain ⟨p', hc', _, hn', hv'⟩ := push_spec σ v hc ht hn
  rw [allElements_eq_vals hc hn, allElements_eq_vals hc' hn', hv']

theorem allElements_eq_collect {T : Type} {σ : State T} (h : ListInv σ) :
    GoList.AllElements σ = collect σ := by
  obtain ⟨p, hc, _, hn⟩ := h
  rw [allElements_eq_vals hc hn, collect_eq_vals hc hn]

theorem collect_empty (T : Type) : collect (State.empty T) = [] := rfl

/-- Cancellation of a chain walk, packaged at the `AllTrace` level. -/
theorem allTrace_stop {T : Type} {σ : State T} {c : Nat → T → Bool} {k : Nat}
    (h : ListInv σ)
    (htrue : ∀ j v, j + 1 < k → c j v = true)
    (hfalse : ∀ v, c (k - 1) v = false)
    (hk1 : 1 ≤ k) (hklen : k ≤ (collect σ).length) :
    AllTrace σ c = (collect σ).take k := by
  obtain ⟨p, hc, _, hn⟩ := h
  have hcol := collect_eq_vals hc hn
  have hkp : k ≤ p.length := by
    rw [hcol] at hklen
    simpa [vals] using hklen
  have := produce_trace_stop htrue hfalse hc σ.heap.length 0 hn (by omega)
    (by simpa using hkp)
  simpa [hcol] using this

theorem wrap_emod (x : Int) :
    wrap x % 18446744073709551616 = x % 18446744073709551616 := by
  unfold wrap
  omega

theorem wrap_range (x : Int) :
    -9223372036854775808 ≤ wrap x ∧ wrap x < 9223372036854775808 := by
  unfold wrap
  omega

theorem genFibLoop_cons (c : Nat → Int → Bool) (f i : Nat) (a b : Int) :
    genFibLoop c (f+1) i a b =
      if c i a then a :: genFibLoop c f (i+1) b (wrap (a + b)) else [a] := by
  conv_lhs => rw [genFibLoop]

/-- Unrolling `genFib`'s loop past `m` consumer invocations that are
known to answer true: the trace is the next `m` Fibonacci values
followed by the rest of the run. -/
theorem genFibLoop_front (c : Nat → Int → Bool) :
    ∀ (m fuel i : Nat), m ≤ fuel →
    (∀ j v, i ≤ j → j < i + m → c j v = true) →
    genFibLoop c fuel i (fibGoPair i).1 (fibGoPair i).2 =
      ((List.range m).map (fun t => (fibGoPair (i + t)).1)) ++
      genFibLoop c (fuel - m) (i + m) (fibGoPair (i + m)).1 (fibGoPair (i + m)).2 := by
  intro m
  induction m with
  | zero => intro fuel i _ _; simp
  | succ m ih =>
    intro fuel i hm hc
    cases fuel with
    | zero => omega
    | succ f =>
      rw [genFibLoop_cons]
      rw [hc i (fibGoPair i).1 le_rfl (by omega), if_pos rfl]
      have hbn : (fibGoPair (i+1)).1 = (fibGoPair i).2 := rfl
      have hbw : (fibGoPair (i+1)).2 = wrap ((fibGoPair i).1 + (fibGoPair i).2) := rfl
      rw [← hbw, ← hbn]
      rw [ih f (i+1) (by omega) (fun j v hj1 hj2 => hc j v (by omega) (by omega))]
      have h1 : f - m = (f + 1) - (m + 1) := by omega
      have h2 : i + 1 + m = i + (m + 1) := by omega
      rw [h1, h2]
      rw [show (List.range (m+1)).map (fun t => (fibGoPair (i + t)).1) =
        (fibGoPair i).1 :: (List.range m).map (fun t => (fibGoPair (i + 1 + t)).1) from ?_]
      · simp
      · rw [List.range_succ_eq_map, List.map_cons, List.map_map]
        refine congrArg₂ List.cons (by simp) ?_
        refine List.map_congr_left ?_
        intro t _
        show (fibGoPair (i + (t + 1))).1 = (fibGoPair (i + 1 + t)).1
        rw [show i + (t + 1) = i + 1 + t from by omega]

theorem genFibLoop_length_true {c : Nat → Int → Bool}
    (hctrue : ∀ j v, c j v = true) :
    ∀ (fuel i : Nat) (a b : Int), (genFibLoop c fuel i a b).length = fuel := by
  intro fuel
  induction fuel with
  | zero => intro i a b; rfl
  | succ f ih =>
    intro i a b
    rw [genFibLoop_cons, hctrue i a, if_pos rfl]
    simp [ih]

theorem genFibLoop_head (c : Nat → Int → Bool) (f i : Nat) (a b : Int) :
    (genFibLoop c (f+1) i a b)[0]? = some a := by
  rw [genFibLoop_cons]
  by_cases hc : c i a <;> simp [hc]

theorem genFibLoop_length_pos (c : Nat → Int → Bool) (f i : Nat) (a b : Int) :
    1 ≤ (genFibLoop c (f+1) i a b).length := by
  rw [genFibLoop_cons]
  by_cases hc : c i a <;> simp [hc]

/-- A run of `genFib` whose consumer answers true before its `k`-th
invocation and false on the `k`-th produces exactly the first `k`
Fibonacci values, regardless of the available fuel. -/
theorem genFib_stop {c : Nat → Int → Bool} {k : Nat}
    (htrue : ∀ j v, j + 1 < k → c j v = true)
    (hfalse : ∀ v, c (k - 1) v = false)
    (hk1 : 1 ≤ k) :
    ∀ fuel, k ≤ fuel →
    genFib c fuel = (List.range k).map (fun t => (fibGoPair t).1) := by
  intro fuel hkf
  have h0 : genFib c fuel = genFibLoop c fuel 0 (fibGoPair 0).1 (fibGoPair 0).2 := rfl
  rw [h0, genFibLoop_front c (k-1) fuel 0 (by omega)
    (fun j v _ hj2 => htrue j v (by omega))]
  obtain ⟨f', hf'⟩ : ∃ f', fuel - (k - 1) = f' + 1 := ⟨fuel - (k-1) - 1, by omega⟩
  rw [hf', genFibLoop_cons]
  rw [show (0 : Nat) + (k - 1) = k - 1 from by omega]
  rw [hfalse (fibGoPair (k-1)).1]
  simp only [Bool.false_eq_true, if_false]
  rw [show k = (k - 1) + 1 from by omega, List.range_succ, List.map_append]
  simp

/-- Under a consumer answering true before its `n`-th invocation, the
`n`-th value of a `genFib` run with enough fuel is the `n`-th wrapped
Fibonacci value. -/
theorem genFib_get {c : Nat → Int → Bool} {n : Nat}
    (htrue : ∀ j v, j + 1 < n → c j v = true)
    (hn1 : 1 ≤ n) :
    ∀ fuel, n ≤ fuel → (genFib c fuel)[n-1]? = some ((fibGoPair (n-1)).1) := by
  intro fuel hnf
  have h0 : genFib c fuel = genFibLoop c fuel 0 (fibGoPair 0).1 (fibGoPair 0).2 := rfl
  rw [h0, genFibLoop_front c (n-1) fuel 0 (by omega)
    (fun j v _ hj2 => htrue j v (by omega))]
  obtain ⟨f', hf'⟩ : ∃ f', fuel - (n - 1) = f' + 1 := ⟨fuel - (n-1) - 1, by omega⟩
  rw [hf']
  rw [List.getElem?_append, if_neg (by simp)]
  simp only [List.length_map, List.length_range, Nat.sub_self]
  rw [show (0 : Nat) + (n - 1) = n - 1 from by omega]
  exact genFibLoop_head c f' (n-1) _ _

/-- With a consumer answering true on its first `n` invocations and
fuel to spare, `genFib`'s producer invokes the consumer at least `n+1`
times. -/
theorem genFib_length_ge {c : Nat → Int → Bool} {n : Nat}
    (htrue : ∀ j v, j < n → c j v = true) :
    ∀ fuel, n < fuel → n < (genFib c fuel).length := by
  intro fuel hnf
  have h0 : genFib c fuel = genFibLoop c fuel 0 (fibGoPair 0).1 (fibGoPair 0).2 := rfl
  rw [h0, genFibLoop_front c n fuel 0 (by omega)
    (fun j v _ hj2 => htrue j v (by omega))]
  obtain ⟨f', hf'⟩ : ∃ f', fuel - n = f' + 1 := ⟨fuel - n - 1, by omega⟩
  rw [hf', List.length_append]
  have := genFibLoop_length_pos c f' (0 + n) (fibGoPair (0+n)).1 (fibGoPair (0+n)).2
  simp only [List.length_map, List.length_range]
  omega

/-- The recurrence of the mathematical Fibonacci numbers. -/
theorem fib_step (n : Nat) : fib (n+2) = fib n + fib (n+1) := rfl

/-- Both accumulators of `genFib` stay in the signed 64-bit range. -/
theorem fibGoPair_range (n : Nat) :
    (-9223372036854775808 ≤ (fibGoPair n).1 ∧ (fibGoPair n).1 < 9223372036854775808) ∧
    (-9223372036854775808 ≤ (fibGoPair n).2 ∧ (fibGoPair n).2 < 9223372036854775808) := by
  induction n with
  | zero => constructor <;> constructor <;> norm_num [fibGoPair]
  | succ m ih =>
    refine ⟨ih.2, ?_⟩
    exact wrap_range _

/-- Both accumulators of `genFib` agree with the mathematical
Fibonacci numbers modulo 2^64. -/
theorem fibGoPair_emod (n : Nat) :
    (fibGoPair n).1 % 18446744073709551616 =
      ((fib (n+1) : Nat) : Int) % 18446744073709551616 ∧
    (fibGoPair n).2 % 18446744073709551616 =
      ((fib (n+2) : Nat) : Int) % 18446744073709551616 := by
  induction n with
  | zero => constructor <;> rfl
  | succ m ih =>
    refine ⟨ih.2, ?_⟩
    show wrap ((fibGoPair m).1 + (fibGoPair m).2) % 18446744073709551616 = _
    rw [wrap_emod, Int.add_emod, ih.1, ih.2, ← Int.add_emod]
    have hNat : fib (m+1) + fib (m+2) = fib (m+3) := (fib_step (m+1)).symm
    have hcast : ((fib (m+1) : Nat) : Int) + ((fib (m+2) : Nat) : Int) =
        ((fib (m+3) : Nat) : Int) := by
      rw [← hNat]
      push_cast
      ring
    rw [hcast]

theorem fibPair_eq_natFib : ∀ n, fibPair n = (Nat.fib n, Nat.fib (n+1)) := by
  intro n
  induction n with
  | zero => rfl
  | succ m ih =>
    show ((fibPair m).2, (fibPair m).1 + (fibPair m).2) = _
    rw [ih]
    simp [Nat.fib_add_two]

/-- The spec-side Fibonacci function agrees with Mathlib's. -/
theorem fib_eq_natFib (n : Nat) : fib n = Nat.fib n := by
  rw [fib, fibPair_eq_natFib]

/-- Below the first 64-bit overflow (which happens at n = 93), the
wrapped Fibonacci values are the mathematical ones. -/
theorem fibGo_eq_fib_small :
    ∀ n : Nat, n ≤ 92 → 1 ≤ n → (fibGoPair (n-1)).1 = ((fib n : Nat) : Int) := by
  have h : ∀ n : Nat, n < 93 → 1 ≤ n → (fibGoPair (n-1)).1 = ((fib n : Nat) : Int) := by
    decide
  intro n h92 h1
  exact h n (by omega) h1

theorem listInv_tail_facts {T : Type} {σ : State T} (h : ListInv σ) :
    (σ.lst.tail = none ↔ σ.lst.head = none) ∧
    (∀ t, σ.lst.tail = some t →
      ∃ p, isChain σ.heap σ.lst.head p ∧ (addrs p).getLast? = some t ∧
        (∃ e, σ.heap[t]? = some e ∧ e.next = none) ∧
        (∀ q ∈ p, q.2.next = none → q.1 = t)) := by
  obtain ⟨p, hc, ht, _⟩ := h
  constructor
  · constructor
    · intro htn
      rw [htn] at ht
      have hp : p = [] := by
        have := List.getLast?_eq_none_iff.mp ht.symm
        simpa [addrs] using this
      subst hp
      exact chain_nil_opt hc
    · intro hhn
      rw [hhn] at hc
      have hp : p = [] := chain_none hc
      subst hp
      exact ht
  · intro t hts
    rw [hts] at ht
    have hmap : (p.getLast?).map Prod.fst = some t := by
      rw [← List.getLast?_map]
      exact ht.symm
    obtain ⟨q, hq1, hq2⟩ := Option.map_eq_some'.mp hmap
    obtain ⟨t', et⟩ := q
    have ht' : t' = t := hq2
    subst ht'
    have hlast := chain_getLast_next_none hc hq1
    refine ⟨p, hc, ht.symm, ⟨et, hlast.1, hlast.2⟩, ?_⟩
    intro q hq hqn
    have := chain_next_none_last hc q hq hqn
    have hmap2 : (p.getLast?).map Prod.fst = some q.1 := by rw [this]; rfl
    rw [hq1] at hmap2
    have : q.1 = t' := by simpa using hmap2.symm
    omega

/-- C1: for every sequence of values pushed with `Push` into an
initially empty `List`, collecting the sequence produced by `All`
(driving it with a consumer that always returns true and appending each
value) yields exactly the pushed values in order; in particular pushing
10, 13, 23 and collecting yields [10, 13, 23], and collecting an empty
`List`'s walk yields the empty list. -/
theorem C1_collect_of_pushes :
    (∀ (T : Type) (vs : List T), collect (pushAll (State.empty T) vs) = vs) ∧
    collect (pushAll (State.empty Nat) [10, 13, 23]) = [10, 13, 23] ∧
    collect (State.empty Nat) = [] := by
  refine ⟨?_, by decide, rfl⟩
  intro T vs
  obtain ⟨p', hc', _, hn', hv'⟩ :=
    pushAll_spec vs (State.empty T) [] isChain.nil rfl (by simp [State.empty])
  rw [collect_eq_vals hc' hn', hv']
  simp [vals]

/-- C4: every `List` reachable from the empty `List` by `Push`
operations satisfies the invariant (the reachable cells form a chain,
`tail` is its last address, nil exactly when `head` is nil, and
otherwise `tail` is the unique chain node whose `next` is nil); `Push`
preserves the invariant. -/
theorem C4_tail_invariant :
    (∀ (T : Type) (vs : List T), ListInv (pushAll (State.empty T) vs)) ∧
    (∀ (T : Type) (σ : State T) (v : T), ListInv σ → ListInv (GoList.Push σ v)) ∧
    (∀ (T : Type) (σ : State T), ListInv σ →
      ((σ.lst.tail = none ↔ σ.lst.head = none) ∧
       (∀ t, σ.lst.tail = some t →
         ∃ p, isChain σ.heap σ.lst.head p ∧ (addrs p).getLast? = some t ∧
           (∃ e, σ.heap[t]? = some e ∧ e.next = none) ∧
           (∀ q ∈ p, q.2.next = none → q.1 = t)))) :=
  ⟨fun T vs => listInv_pushAll vs (listInv_empty T),
   fun _ _ v h => listInv_push v h,
   fun _ _ h => listInv_tail_facts h⟩

/-- C4 witness: pushing onto the empty list preserves the invariant at
a concrete instance. -/
theorem C4_tail_invariant_witness : ListInv (GoList.Push (State.empty Nat) 7) :=
  C4_tail_invariant.2.1 Nat (State.empty Nat) 7
    ⟨[], isChain.nil, rfl, by decide⟩

/-- C5: `Push` is a pure append: after `Push v` the element sequence
(as returned by `AllElements` or as yielded by `All` under an
always-true consumer) is the old sequence followed by `v`, and the
length grows by exactly one. -/
theorem C5_push_appends :
    ∀ (T : Type) (σ : State T) (v : T), ListInv σ →
      GoList.AllElements (GoList.Push σ v) = GoList.AllElements σ ++ [v] ∧
      collect (GoList.Push σ v) = collect σ ++ [v] ∧
      (GoList.AllElements (GoList.Push σ v)).length =
        (GoList.AllElements σ).length + 1 := by
  intro T σ v h
  have h1 := allElements_push v h
  have h2 := collect_push v h
  refine ⟨h1, h2, ?_⟩
  rw [h1]
  simp

/-- C5 witness: pushing 23 after 10 and 13 appends it. -/
theorem C5_push_appends_witness :
    GoList.AllElements (GoList.Push (pushAll (State.empty Nat) [10, 13]) 23) =
      GoList.AllElements (pushAll (State.empty Nat) [10, 13]) ++ [23] :=
  (C5_push_appends Nat (pushAll (State.empty Nat) [10, 13]) 23
    (listInv_pushAll [10, 13] (listInv_empty Nat))).1

/-- C6: the walk is repeatable and non-mutating: driving the producer
returned by `All` with any consumer returns the state unchanged (no
cell, head or tail is written), and a second independent run on the
resulting state drives the consumer with the identical value
sequence. -/
theorem C6_walk_non_mutating :
    ∀ (T : Type) (σ : State T) (c : Nat → T → Bool),
      (GoList.All σ c).1 = σ ∧
      AllTrace (GoList.All σ c).1 c = AllTrace σ c := by
  intro T σ c
  have h := produce_fst c σ.heap.length 0 σ.lst.head σ
  constructor
  · exact h
  · show AllTrace (GoList.All σ c).1 c = AllTrace σ c
    rw [show (GoList.All σ c).1 = σ from h]

/-- C9: the sequence returned by `All` is a live view, not a snapshot:
values pushed between obtaining the sequence and driving it are
yielded by the run as well (the producer reads the list's head and the
heap only when it is driven). -/
theorem C9_live_view :
    ∀ (T : Type) (σ : State T) (us : List T), ListInv σ →
      AllTrace (pushAll σ us) (fun _ _ => true) =
        AllTrace σ (fun _ _ => true) ++ us := by
  intro T σ us h
  exact collect_pushAll us h

/-- C9 witness: pushing 13 and 23 after the sequence over [10] is
obtained makes the run yield them too. -/
theorem C9_live_view_witness :
    AllTrace (pushAll (pushAll (State.empty Nat) [10]) [13, 23]) (fun _ _ => true) =
      AllTrace (pushAll (State.empty Nat) [10]) (fun _ _ => true) ++ [13, 23] :=
  C9_live_view Nat (pushAll (State.empty Nat) [10]) [13, 23]
    (listInv_pushAll [10] (listInv_empty Nat))

/-- C10: the zero value `List[T]{}` is a valid empty chain: the first
`Push` takes the empty branch, allocating a single cell with nil `next`
that `head` and `tail` both point at. -/
theorem C10_zero_value :
    ∀ (T : Type) (v : T),
      GoList.Push (State.empty T) v =
        ⟨[⟨none, v⟩], ⟨some 0, some 0⟩⟩ ∧
      (GoList.Push (State.empty T) v).lst.head =
        (GoList.Push (State.empty T) v).lst.tail :=
  fun _ _ => ⟨rfl, rfl⟩

set_option maxRecDepth 4000 in
/-- C2 counterexample: the claim fails as stated at n = 93: with a
consumer that keeps returning true through the 93rd call, the 93rd
value produced by `genFib` is not the 93rd Fibonacci number (Go's
64-bit `int` addition has wrapped). -/
theorem C2_counterexample :
    (genFib (fun _ _ => true) 93)[93 - 1]? ≠ some ((fib 93 : Nat) : Int) := by
  decide

/-- C2 (amended): for every n with 1 ≤ n ≤ 92 (exactly the range where
the n-th Fibonacci number fits in a signed 64-bit int), the n-th value
produced by `genFib` under a consumer returning true until the n-th
call equals the n-th Fibonacci number with F(1)=F(2)=1; in particular
the first 10 produced values are 1, 1, 2, 3, 5, 8, 13, 21, 34, 55. -/
theorem C2_nth_fib_amended :
    (∀ (c : Nat → Int → Bool) (n fuel : Nat), 1 ≤ n → n ≤ 92 → n ≤ fuel →
      (∀ j v, j + 1 < n → c j v = true) →
      (genFib c fuel)[n - 1]? = some ((fib n : Nat) : Int)) ∧
    genFib (fun i _ => decide (i + 1 < 10)) 10 =
      [1, 1, 2, 3, 5, 8, 13, 21, 34, 55] := by
  constructor
  · intro c n fuel h1 h92 hfuel htrue
    rw [genFib_get htrue h1 fuel hfuel, fibGo_eq_fib_small n h92 h1]
  · decide

/-- C2 witness: the 10th value produced under an always-true consumer
with fuel 10 is F(10) = 55. -/
theorem C2_nth_fib_amended_witness :
    (genFib (fun _ _ => true) 10)[10 - 1]? = some ((fib 10 : Nat) : Int) :=
  C2_nth_fib_amended.1 (fun _ _ => true) 10 10 (by decide) (by decide) (by decide)
    (fun _ _ _ => rfl)

/-- C3: cancellation is exact for both producers: if the consumer
returns true before its k-th invocation and false on the k-th (and the
chain has at least k values, for the walker), then the consumer is
invoked exactly k times with the first k values, the producer performs
no further work (the walker returns the state unchanged; the generator
trace is what a run with exactly k iterations of fuel gives), and
`produce` returns. -/
theorem C3_cancellation_exact :
    (∀ (T : Type) (σ : State T) (c : Nat → T → Bool) (k : Nat),
      ListInv σ → 1 ≤ k → k ≤ (collect σ).length →
      (∀ j v, j + 1 < k → c j v = true) → (∀ v, c (k - 1) v = false) →
      (AllTrace σ c).length = k ∧ AllTrace σ c = (collect σ).take k ∧
        (GoList.All σ c).1 = σ) ∧
    (∀ (c : Nat → Int → Bool) (k fuel : Nat), 1 ≤ k → k ≤ fuel →
      (∀ j v, j + 1 < k → c j v = true) → (∀ v, c (k - 1) v = false) →
      (genFib c fuel).length = k ∧ genFib c fuel = genFib c k) := by
  constructor
  · intro T σ c k hinv hk1 hklen htrue hfalse
    have htr := allTrace_stop hinv htrue hfalse hk1 hklen
    refine ⟨?_, htr, produce_fst c σ.heap.length 0 σ.lst.head σ⟩
    rw [htr]
    simp
    omega
  · intro c k fuel hk1 hkf htrue hfalse
    have h1 := genFib_stop htrue hfalse hk1 fuel hkf
    have h2 := genFib_stop htrue hfalse hk1 k le_rfl
    constructor
    · rw [h1]; simp
    · rw [h1, h2]

/-- C3 witness: a consumer that cancels on its 2nd call sees exactly 2
values from the 3-element chain, and exactly 4 values from `genFib`
with fuel 10. -/
theorem C3_cancellation_exact_witness :
    (AllTrace (pushAll (State.empty Nat) [10, 13, 23])
        (fun i _ => decide (i + 1 < 2))).length = 2 ∧
    (genFib (fun i _ => decide (i + 1 < 4)) 10).length = 4 :=
  ⟨(C3_cancellation_exact.1 Nat (pushAll (State.empty Nat) [10, 13, 23])
      (fun i _ => decide (i + 1 < 2)) 2
      (listInv_pushAll [10, 13, 23] (listInv_empty Nat))
      (by decide) (by decide)
      (fun j v hj => decide_eq_true hj) (fun v => rfl)).1,
   (C3_cancellation_exact.2 (fun i _ => decide (i + 1 < 4)) 4 10
      (by decide) (by decide)
      (fun j v hj => decide_eq_true hj) (fun v => rfl)).1⟩

/-- C7: the unbounded generator never stops on its own: whenever the
consumer has answered true on its first n invocations and fuel remains,
the producer invokes it an (n+1)-th time; and under an always-true
consumer the loop runs for as long as its fuel lasts (it returns only
because of a false answer or fuel exhaustion, the latter being the
embedding's rendering of running forever). -/
theorem C7_generator_never_stops :
    (∀ (c : Nat → Int → Bool) (n fuel : Nat), (∀ j v, j < n → c j v = true) →
      n < fuel → n < (genFib c fuel).length) ∧
    (∀ (c : Nat → Int → Bool) (fuel : Nat), (∀ j v, c j v = true) →
      (genFib c fuel).length = fuel) := by
  constructor
  · intro c n fuel htrue hnf
    exact genFib_length_ge htrue fuel hnf
  · intro c fuel htrue
    exact genFibLoop_length_true htrue fuel 0 1 1

/-- C7 witness: with a consumer answering true on its first 3 calls and
fuel 5, the consumer is invoked a 4th time. -/
theorem C7_generator_never_stops_witness :
    3 < (genFib (fun _ _ => true) 5).length :=
  C7_generator_never_stops.1 (fun _ _ => true) 3 5 (fun _ _ _ => rfl) (by decide)

set_option maxRecDepth 4000 in
/-- C8: `genFib` computes with Go's fixed-width 64-bit `int`: the n-th
produced value is congruent to the n-th Fibonacci number modulo 2^64
and lies in the signed range [-2^63, 2^63); consequently, whenever
F(n) ≥ 2^63 the produced value differs from the mathematical Fibonacci
number — which happens, e.g., at n = 93. -/
theorem C8_wrapping_int :
    (∀ (c : Nat → Int → Bool) (n fuel : Nat), 1 ≤ n → n ≤ fuel →
      (∀ j v, j + 1 < n → c j v = true) →
      (genFib c fuel)[n - 1]? = some (nthFibGo n)) ∧
    (∀ n : Nat, 1 ≤ n →
      nthFibGo n % 18446744073709551616 =
        ((fib n : Nat) : Int) % 18446744073709551616 ∧
      (-9223372036854775808 ≤ nthFibGo n ∧ nthFibGo n < 9223372036854775808) ∧
      ((9223372036854775808 : Int) ≤ ((fib n : Nat) : Int) →
        nthFibGo n ≠ ((fib n : Nat) : Int))) ∧
    ((9223372036854775808 : Int) ≤ ((fib 93 : Nat) : Int) ∧
      nthFibGo 93 ≠ ((fib 93 : Nat) : Int)) := by
  refine ⟨?_, ?_, by decide, by decide⟩
  · intro c n fuel h1 hf htrue
    exact genFib_get htrue h1 fuel hf
  · intro n h1
    have hrange := (fibGoPair_range (n - 1)).1
    have hemod := (fibGoPair_emod (n - 1)).1
    rw [show n - 1 + 1 = n from by omega] at hemod
    refine ⟨hemod, hrange, ?_⟩
    intro hbig
    have : nthFibGo n < 9223372036854775808 := hrange.2
    show (fibGoPair (n - 1)).1 ≠ ((fib n : Nat) : Int)
    omega

/-- C8 witness: with an always-true consumer and fuel 93 the 93rd trace
entry is the wrapped value. -/
theorem C8_wrapping_int_witness :
    (genFib (fun _ _ => true) 93)[93 - 1]? = some (nthFibGo 93) :=
  C8_wrapping_int.1 (fun _ _ => true) 93 93 (by decide) (by decide)
    (fun _ _ _ => rfl)
